import Mathlib

/-!
Verification of the `crypto_utils` security layer of node-opcua.

The JavaScript source is shallowly embedded over `List Nat` byte buffers
(each entry is one byte, `< 256` where it matters) and `List Char` strings.
External cryptographic primitives provided by the node runtime
(`crypto.createHmac("SHA1", k)`, RSA `publicEncrypt` / `privateDecrypt`,
the jsrsasign X.509 parser) are not code of this repository; they enter the
embedding as explicit function parameters, and the theorems state the
properties of those primitives they rely on (e.g. an HMAC-SHA1 digest has
exactly 20 bytes) as hypotheses.

The file is organised as: all definitions first, then all theorems.
-/

/-- Byte buffers (node `Buffer`): a list of byte values. -/
abbrev Bytes := List Nat

namespace CryptoUtils

/-! ## Key derivation: `makePseudoRandomBuffer` (P_SHA1)

Embeds the source's while loop

    a[0] = seed; index = 1; p_sha1 = new Buffer(0);
    while (p_sha1.length <= minLength) {
      a[index] = HMAC_SHA1(secret, a[index - 1]);
      p_sha1 = plus(p_sha1, HMAC_SHA1(secret, plus(a[index], seed)));
      index += 1;
    }
    return p_sha1.slice(0, minLength);

The loop is written with an explicit iteration bound (`fuel`).  Each pass
of the source loop appends one HMAC digest to `p_sha1`; since an HMAC-SHA1
digest is non-empty, the source loop performs at most `minLength + 1`
passes, so running the fueled loop with `minLength + 1` iterations is
exactly the source semantics (the theorems assume the digest length is 20,
under which the fuel is never exhausted). -/

/-- One-state-per-pass embedding of the `while` loop of
`makePseudoRandomBuffer`.  `aPrev` is `a[index - 1]`, `acc` is `p_sha1`. -/
def prfLoop (hmac : Bytes → Bytes → Bytes) (secret seed : Bytes) (minLength : Nat) :
    Bytes → Bytes → Nat → Bytes
  | _, acc, 0 => acc
  | aPrev, acc, fuel + 1 =>
    if acc.length ≤ minLength then
      let aCur := hmac secret aPrev
      prfLoop hmac secret seed minLength aCur (acc ++ hmac secret (aCur ++ seed)) fuel
    else acc

/-- `makePseudoRandomBuffer(secret, seed, minLength)` from the source,
parameterised by the runtime's `HMAC_SHA1`. -/
def makePseudoRandomBuffer (hmac : Bytes → Bytes → Bytes) (secret seed : Bytes)
    (minLength : Nat) : Bytes :=
  (prfLoop hmac secret seed minLength seed [] (minLength + 1)).take minLength

/-- The `A` chain of the P_SHA1 construction, written from the claim:
`A(0) = seed`, `A(n) = HMAC_SHA1(secret, A(n-1))`. -/
def pshaA (hmac : Bytes → Bytes → Bytes) (secret seed : Bytes) : Nat → Bytes
  | 0 => seed
  | n + 1 => hmac secret (pshaA hmac secret seed n)

/-- First `n` output blocks of the P_SHA1 stream, written from the claim:
block `i` (starting at `i = 1`) is `HMAC_SHA1(secret, A(i) ++ seed)` and the
stream is the concatenation of the blocks. -/
def psha1Blocks (hmac : Bytes → Bytes → Bytes) (secret seed : Bytes) (n : Nat) : Bytes :=
  ((List.range n).map (fun i => hmac secret (pshaA hmac secret seed (i + 1) ++ seed))).flatten

/-! ## `computeDerivedKeys` -/

/-- `Buffer.slice(s, e)` for `0 ≤ s ≤ e` (the only way the source uses the
two-argument form): bytes from index `s` up to but excluding `e`, clamped
to the buffer length. -/
def jsSlice (b : Bytes) (s e : Nat) : Bytes := (b.drop s).take (e - s)

/-- The `options` record consumed by `computeDerivedKeys` (all length
fields are asserted finite numbers in the source, `algorithm` a string). -/
structure DerivedKeysOptions where
  signingKeyLength : Nat
  encryptingKeyLength : Nat
  encryptingBlockSize : Nat
  signatureLength : Nat
  algorithm : String

/-- The record returned by `computeDerivedKeys`. -/
structure DerivedKeys where
  signingKey : Bytes
  encryptingKey : Bytes
  initializationVector : Bytes
  signingKeyLength : Nat
  encryptingKeyLength : Nat
  encryptingBlockSize : Nat
  signatureLength : Nat
  algorithm : String

/-- `computeDerivedKeys(secret, seed, options)` from the source: draws
`offset3 = signingKeyLength + encryptingKeyLength + encryptingBlockSize`
bytes from `makePseudoRandomBuffer` and slices them at
`offset1 = signingKeyLength` and `offset2 = offset1 + encryptingKeyLength`.
The source checks only that the length fields are finite numbers and that
`algorithm` is a string (enforced here by the types); it does not examine
the value of `options.algorithm`. -/
def computeDerivedKeys (hmac : Bytes → Bytes → Bytes) (secret seed : Bytes)
    (options : DerivedKeysOptions) : DerivedKeys :=
  let offset1 := options.signingKeyLength
  let offset2 := offset1 + options.encryptingKeyLength
  let offset3 := offset2 + options.encryptingBlockSize
  let minLength := offset3
  let buf := makePseudoRandomBuffer hmac secret seed minLength
  { signingKey := jsSlice buf 0 offset1
    encryptingKey := jsSlice buf offset1 offset2
    initializationVector := jsSlice buf offset2 offset3
    signingKeyLength := options.signingKeyLength
    encryptingKeyLength := options.encryptingKeyLength
    encryptingBlockSize := options.encryptingBlockSize
    signatureLength := options.signatureLength
    algorithm := options.algorithm }

/-! ## Padding footer -/

/-- `computePaddingFooter(buffer, derivedKeys)` from the source:

    var paddingSize = derivedKeys.encryptingBlockSize - (buffer.length + 1) % derivedKeys.encryptingBlockSize;
    var padding = new Buffer(paddingSize + 1);
    padding.fill(paddingSize);

`Buffer.fill` stores the value reduced to one byte, i.e. `paddingSize % 256`. -/
def computePaddingFooter (buffer : Bytes) (derivedKeys : DerivedKeys) : Bytes :=
  let paddingSize :=
    derivedKeys.encryptingBlockSize - (buffer.length + 1) % derivedKeys.encryptingBlockSize
  List.replicate (paddingSize + 1) (paddingSize % 256)

/-- `reduceLength(buffer, byte_to_remove)` from the source:
`buffer.slice(0, buffer.length - byte_to_remove)`. -/
def reduceLength (buffer : Bytes) (byteToRemove : Nat) : Bytes :=
  buffer.take (buffer.length - byteToRemove)

/-- `removePadding(buffer)` from the source: reads the last byte
(`buffer.readUInt8(buffer.length - 1)`) as the padding length `n` and
removes the trailing `n + 1` bytes. -/
def removePadding (buffer : Bytes) : Bytes :=
  let nbPaddingBytes := buffer.getD (buffer.length - 1) 0 + 1
  reduceLength buffer nbPaddingBytes

/-! ## HMAC chunk signatures -/

/-- `makeMessageChunkSignatureWithDerivedKeys(message, derivedKeys)` from
the source: the HMAC-SHA1 digest of `message` under
`derivedKeys.signingKey`.  The source line

    assert(signature.length = derivedKeys.signatureLength);

uses `=` (assignment) instead of `===`: no length comparison takes place
and the digest buffer is returned unchanged, but the assignment expression
evaluates to `derivedKeys.signatureLength`, so `better-assert` throws
exactly when that value is falsy (`0`); a throw is modelled by `none`. -/
def makeMessageChunkSignatureWithDerivedKeys (hmac : Bytes → Bytes → Bytes)
    (message : Bytes) (derivedKeys : DerivedKeys) : Option Bytes :=
  let signature := hmac derivedKeys.signingKey message
  if derivedKeys.signatureLength = 0 then none else some signature

/-- Lower-case hexadecimal digit for a value `< 16` (as produced by
`Buffer.toString("hex")`). -/
def hexDigit (n : Nat) : Char :=
  "0123456789abcdef".toList.getD n '0'

/-- `Buffer.toString("hex")`: two lower-case hex digits per stored byte. -/
def hexOfBytes (b : Bytes) : List Char :=
  b.flatMap (fun x => [hexDigit (x % 256 / 16), hexDigit (x % 16)])

/-- `verifyChunkSignatureWithDerivedKeys(chunk, derivedKeys)` from the
source: split the chunk at `chunk.length - derivedKeys.signatureLength`,
recompute the HMAC of the prefix and compare hex strings with the trailing
signature.  A throw inside `makeMessageChunkSignatureWithDerivedKeys`
(falsy `signatureLength`) propagates to the caller, modelled by `none`. -/
def verifyChunkSignatureWithDerivedKeys (hmac : Bytes → Bytes → Bytes)
    (chunk : Bytes) (derivedKeys : DerivedKeys) : Option Bool :=
  let message := chunk.take (chunk.length - derivedKeys.signatureLength)
  let signature := chunk.drop (chunk.length - derivedKeys.signatureLength)
  match makeMessageChunkSignatureWithDerivedKeys hmac message derivedKeys with
  | none => none
  | some verif => some (decide (hexOfBytes verif = hexOfBytes signature))

/-! ## Symmetric algorithm check -/

/-- `derivedKeys_algorithm(derivedKeys)` from the source:

    var algorithm = derivedKeys.algorithm || "aes-128-cbc";
    assert(algorithm === "aes-128-cbc" || algorithm === "aes-256-cbc");
    return algorithm;

A failing `assert` throws; this is modelled by `none`.  The only falsy
string is the empty string, which selects the default. -/
def derivedKeys_algorithm (derivedKeys : DerivedKeys) : Option String :=
  let algorithm := if derivedKeys.algorithm = "" then "aes-128-cbc" else derivedKeys.algorithm
  if algorithm = "aes-128-cbc" ∨ algorithm = "aes-256-cbc" then some algorithm else none

/-! ## Chunked RSA -/

/-- Common loop shape of `publicEncrypt_long` and `privateDecrypt_long`:
compute `nbBlocks = Math.ceil(buffer.length / width)`, apply `f` to each
slice `buffer.slice(width * i, width * (i + 1))` (the final slice may be
shorter), and copy the results consecutively into the output, which is
returned with exactly the total produced length.  `Math.ceil` of the
quotient is `(len + width - 1) / width` for `width > 0`; the theorems
assume `width > 0` (with `width = 0` the source's block count would be the
float `Infinity`). -/
def chunkedMap (f : Bytes → Bytes) (width : Nat) (buffer : Bytes) : Bytes :=
  let nbBlocks := (buffer.length + width - 1) / width
  ((List.range nbBlocks).map (fun i => f ((buffer.drop (width * i)).take width))).flatten

/-- `publicEncrypt_long(buffer, key, block_size, padding)` from the
source: splits the plaintext into `chunk_size = block_size - padding`
sized chunks and concatenates the per-chunk RSA encryptions (each
`block_size` bytes, per the source's assert).  The runtime RSA backend
(`publicEncrypt` with the key and padding algorithm applied) is the
parameter `encrypt`. -/
def publicEncrypt_long (encrypt : Bytes → Bytes) (buffer : Bytes)
    (block_size padding : Nat) : Bytes :=
  let chunk_size := block_size - padding
  chunkedMap encrypt chunk_size buffer

/-- `privateDecrypt_long(buffer, key, block_size)` from the source: splits
the ciphertext into `block_size` sized chunks, decrypts each, and returns
`outputBuffer.slice(0, total_length)`, i.e. exactly the concatenation of
the per-chunk decryptions.  The runtime RSA backend (`privateDecrypt` with
the key and padding algorithm applied) is the parameter `decrypt`. -/
def privateDecrypt_long (decrypt : Bytes → Bytes) (buffer : Bytes)
    (block_size : Nat) : Bytes :=
  chunkedMap decrypt block_size buffer

/-! ## PEM codec

`identifyPemType` runs

    PEM_REGEX = /^(-----BEGIN (.*)-----\r?\n[\/+=a-zA-Z0-9\r\n]*\r?\n-----END \2-----\r?\n)/m

over the buffer decoded as text and returns the second capture group.
Buffers are decoded character-by-character below; this is the identity on
the ASCII range, and since every character of the envelope pattern is
ASCII while a non-ASCII byte never decodes to an ASCII character, whether
the pattern matches is unaffected. -/

/-- `buffer.toString("utf8")`, byte-per-character (exact on ASCII). -/
def bytesToChars (b : Bytes) : List Char := b.map Char.ofNat

/-- `new Buffer(string)` (UTF-8 encoding), character-per-byte (exact on
ASCII). -/
def charsToBytes (s : List Char) : Bytes := s.map Char.toNat

/-- The character class `[\/+=a-zA-Z0-9\r\n]` of the body part of
`PEM_REGEX`. -/
def isPemBodyChar (c : Char) : Bool :=
  c = '/' || c = '+' || c = '=' ||
    (decide ('a' ≤ c) && decide (c ≤ 'z')) ||
    (decide ('A' ≤ c) && decide (c ≤ 'Z')) ||
    (decide ('0' ≤ c) && decide (c ≤ '9')) ||
    c = '\r' || c = '\n'

/-- The five-dash literal of the PEM envelope. -/
def dashes5 : List Char := ['-', '-', '-', '-', '-']

/-- The literal `-----BEGIN ` (11 characters). -/
def beginTag : List Char := "-----BEGIN ".toList

/-- The literal `-----END ` (9 characters). -/
def endTag : List Char := "-----END ".toList

/-- Header-line part of one attempted match of `PEM_REGEX`.  `(.*)` is
greedy and cannot cross the line end, so the header line must read
`-----BEGIN <type>-----` with at most one trailing `\r` (consumed by
`\r?`), and `<type>` is the longest capture, i.e. the line with the two
literals removed. -/
def pemMatchHeader (line : List Char) : Option (List Char) :=
  let lineBody := if line.getLast? = some '\r' then line.dropLast else line
  if beginTag.isPrefixOf lineBody ∧ dashes5.isSuffixOf (lineBody.drop 11) then
    some ((lineBody.drop 11).take ((lineBody.drop 11).length - 5))
  else none

/-- The part of the match after the header newline: `[...]*\r?\n` must
consume exactly the maximal run of body characters (since `-` is not in
the class), that run must end in a newline, and
`-----END <type>-----\r?\n` must follow immediately (`\2` is a
back-reference, so the end label is compared against the capture). -/
def pemMatchBody (ty afterHeader : List Char) : Option (List Char) :=
  let run := afterHeader.takeWhile isPemBodyChar
  let afterRun := afterHeader.dropWhile isPemBodyChar
  if run.getLast? = some '\n' then
    let footer := endTag ++ ty ++ dashes5
    if footer.isPrefixOf afterRun then
      let rem := afterRun.drop footer.length
      if rem.head? = some '\n' ∨ rem.take 2 = ['\r', '\n'] then some ty else none
    else none
  else none

/-- One attempted match of `PEM_REGEX` at a line start: the header line
(the characters up to the first newline) is parsed by `pemMatchHeader`,
the remainder by `pemMatchBody`.  When the text has no newline at all the
mandatory `\r?\n` after the header cannot match. -/
def pemMatchAt (s : List Char) : Option (List Char) :=
  match s.dropWhile (fun c => c ≠ '\n') with
  | [] => none
  | _ :: afterHeader =>
    match pemMatchHeader (s.takeWhile (fun c => c ≠ '\n')) with
    | none => none
    | some ty => pemMatchBody ty afterHeader

/-- Scan for the first position where `PEM_REGEX` can match after the
start of the string: the `m` flag lets `^` match just after any newline. -/
def findPemAux : List Char → Option (List Char)
  | [] => none
  | c :: rest =>
    match (if c = '\n' then pemMatchAt rest else none) with
    | some ty => some ty
    | none => findPemAux rest

/-- `identifyPemType(raw_key)` from the source: the label captured by
`PEM_REGEX`, or `none` when the text is not a PEM envelope. -/
def identifyPemType (s : List Char) : Option (List Char) :=
  match pemMatchAt s with
  | some ty => some ty
  | none => findPemAux s

/-! ## Base64 (`Buffer.toString("base64")` / `new Buffer(str, "base64")`) -/

/-- The base64 alphabet. -/
def b64Alphabet : List Char :=
  "ABCDEFGHIJKLMNOPQRSTUVWXYZabcdefghijklmnopqrstuvwxyz0123456789+/".toList

/-- Character for a 6-bit value. -/
def b64CharOf (n : Nat) : Char := b64Alphabet.getD n 'A'

/-- 6-bit value of an alphabet character. -/
def b64ValueOf (c : Char) : Nat := b64Alphabet.indexOf c

/-- `buffer.toString("base64")`: three input bytes per four output
characters, `=`-padded final quantum. -/
def base64Encode : Bytes → List Char
  | [] => []
  | [b1] => [b64CharOf (b1 / 4), b64CharOf (b1 % 4 * 16), '=', '=']
  | [b1, b2] =>
    [b64CharOf (b1 / 4), b64CharOf (b1 % 4 * 16 + b2 / 16), b64CharOf (b2 % 16 * 4), '=']
  | b1 :: b2 :: b3 :: rest =>
    b64CharOf (b1 / 4) :: b64CharOf (b1 % 4 * 16 + b2 / 16) ::
      b64CharOf (b2 % 16 * 4 + b3 / 64) :: b64CharOf (b3 % 64) :: base64Encode rest

/-- `new Buffer(str, "base64")` on well-formed base64: four characters per
three bytes, a trailing `=` quantum producing one or two bytes. -/
def base64Decode : List Char → Bytes
  | c1 :: c2 :: c3 :: c4 :: rest =>
    if c3 = '=' then [b64ValueOf c1 * 4 + b64ValueOf c2 / 16]
    else if c4 = '=' then
      [b64ValueOf c1 * 4 + b64ValueOf c2 / 16,
        b64ValueOf c2 % 16 * 16 + b64ValueOf c3 / 4]
    else
      (b64ValueOf c1 * 4 + b64ValueOf c2 / 16) ::
        (b64ValueOf c2 % 16 * 16 + b64ValueOf c3 / 4) ::
        (b64ValueOf c3 % 4 * 64 + b64ValueOf c4) ::
        base64Decode rest
  | _ => []

/-! ## `toPem` and `readPEM` -/

/-- The line-wrapping loop of `toPem`:

    while (b.length) { str += b.substr(0, 64) + "\n"; b = b.substr(64); }
-/
def chunkLines (s : List Char) : List Char :=
  if h : s = [] then [] else s.take 64 ++ '\n' :: chunkLines (s.drop 64)
  termination_by s.length
  decreasing_by
    have hpos : 0 < s.length := List.length_pos.mpr h
    simp [List.length_drop]
    omega

/-- The successive 64-character lines of a linefeed-free text (what the
loop above separates with newlines). -/
def linesOf (s : List Char) : List (List Char) :=
  if h : s = [] then [] else s.take 64 :: linesOf (s.drop 64)
  termination_by s.length
  decreasing_by
    have hpos : 0 < s.length := List.length_pos.mpr h
    simp [List.length_drop]
    omega

/-- `key.split("\n")`. -/
def splitNl : List Char → List (List Char)
  | [] => [[]]
  | c :: rest =>
    if c = '\n' then [] :: splitNl rest
    else
      match splitNl rest with
      | [] => [[c]]
      | h :: t => (c :: h) :: t

/-- `toPem(raw_key, pem)` from the source: a buffer already identified as
PEM is returned unchanged; otherwise its base64 encoding is wrapped in
64-character lines between `-----BEGIN <pem>-----` and
`-----END <pem>-----` lines with a trailing newline (the source asserts
`pem` is one of `CERTIFICATE`, `RSA PRIVATE KEY`, `PUBLIC KEY`; the
theorems quantify over exactly those labels). -/
def toPem (raw_key : Bytes) (pem : List Char) : List Char :=
  match identifyPemType (bytesToChars raw_key) with
  | some _ => bytesToChars raw_key
  | none =>
    beginTag ++ pem ++ dashes5 ++
      '\n' :: (chunkLines (base64Encode raw_key) ++ (endTag ++ pem ++ dashes5 ++ ['\n']))

/-- `readPEM(raw_key)` from the source: when the text is identified as
PEM, split on `"\n"`, concatenate the lines strictly between the header
line and the last two entries (the footer line and the empty string after
the final newline), and base64-decode; otherwise the bytes are returned
unchanged (`new Buffer(raw_key)`). -/
def readPEM (raw_key : List Char) : Bytes :=
  match identifyPemType raw_key with
  | some _ =>
    let a := splitNl raw_key
    base64Decode ((a.drop 1).take (a.length - 3)).flatten
  | none => charsToBytes raw_key

/-! ## `exploreCertificate` -/

/-- Result record of `exploreCertificate`. -/
structure ExploreResult where
  publicKeyLength : Nat
  notBefore : Int
  notAfter : Int

/-- `exploreCertificate(certificate)` from the source, with the jsrsasign
X.509 parser abstracted as `parse` (it yields the length of the
`subjectPublicKeyRSA_hN` hex string and the two parsed validity integers,
or `none` when `readCertPEM` throws on unparsable input).
`publicKeyLength = hN.length / 2 - 1` is computed in JS float arithmetic:
it can equal 128 or 256 (the source's assert) only when `hN.length` is
even and the integer quotient matches; a failing assert throws, i.e.
`none`. -/
def exploreCertificate (parse : List Char → Option (Nat × Int × Int))
    (certificate : List Char) : Option ExploreResult :=
  match parse certificate with
  | none => none
  | some (hNLen, nb, na) =>
    let publicKeyLength := hNLen / 2 - 1
    if hNLen % 2 = 0 ∧ (publicKeyLength = 256 ∨ publicKeyLength = 128) then
      some ⟨publicKeyLength, nb * 10, na * 10⟩
    else none

end CryptoUtils

open CryptoUtils

/-! # Theorems -/

theorem psha1Blocks_succ (hmac : Bytes → Bytes → Bytes) (secret seed : Bytes) (n : Nat) :
    psha1Blocks hmac secret seed (n + 1) =
      psha1Blocks hmac secret seed n ++ hmac secret (pshaA hmac secret seed (n + 1) ++ seed) := by
  simp [psha1Blocks, List.range_succ]

theorem psha1Blocks_length (hmac : Bytes → Bytes → Bytes) (secret seed : Bytes) (n : Nat)
    (hdig : ∀ m : Bytes, (hmac secret m).length = 20) :
    (psha1Blocks hmac secret seed n).length = 20 * n := by
  induction n with
  | zero => simp [psha1Blocks]
  | succ n ih =>
    rw [psha1Blocks_succ]
    simp [ih, hdig]
    omega

/-- Invariant of the fueled loop: started after `k` completed passes
(`aPrev = A(k)`, `acc` = first `k` blocks) with enough fuel, the loop
returns the first `max k (minLength / 20 + 1)` blocks. -/
theorem prfLoop_eq (hmac : Bytes → Bytes → Bytes) (secret seed : Bytes) (minLength : Nat)
    (hdig : ∀ m : Bytes, (hmac secret m).length = 20) :
    ∀ fuel k, minLength / 20 + 1 ≤ k + fuel →
      prfLoop hmac secret seed minLength (pshaA hmac secret seed k)
          (psha1Blocks hmac secret seed k) fuel =
        psha1Blocks hmac secret seed (max k (minLength / 20 + 1)) := by
  intro fuel
  induction fuel with
  | zero =>
    intro k hk
    have hmax : max k (minLength / 20 + 1) = k := by omega
    simp [prfLoop, hmax]
  | succ fuel ih =>
    intro k hk
    rw [prfLoop]
    by_cases hlen : (psha1Blocks hmac secret seed k).length ≤ minLength
    · rw [if_pos hlen]
      have hlen20 : 20 * k ≤ minLength := by
        rw [psha1Blocks_length hmac secret seed k hdig] at hlen; exact hlen
      have hklt : k < minLength / 20 + 1 := by
        have : k ≤ minLength / 20 := (Nat.le_div_iff_mul_le (by norm_num)).mpr
          (by omega)
        omega
      show prfLoop hmac secret seed minLength (pshaA hmac secret seed (k + 1))
          (psha1Blocks hmac secret seed k ++
            hmac secret (pshaA hmac secret seed (k + 1) ++ seed)) fuel = _
      rw [← psha1Blocks_succ, ih (k + 1) (by omega)]
      have : max (k + 1) (minLength / 20 + 1) = max k (minLength / 20 + 1) := by omega
      rw [this]
    · rw [if_neg hlen]
      have hlen20 : minLength < 20 * k := by
        rw [psha1Blocks_length hmac secret seed k hdig] at hlen; omega
      have hge : minLength / 20 + 1 ≤ k := by
        have : minLength / 20 < k := (Nat.div_lt_iff_lt_mul (by norm_num)).mpr (by omega)
        omega
      have hmax : max k (minLength / 20 + 1) = k := by omega
      rw [hmax]

theorem makePseudoRandomBuffer_eq (hmac : Bytes → Bytes → Bytes) (secret seed : Bytes)
    (minLength : Nat) (hdig : ∀ m : Bytes, (hmac secret m).length = 20) :
    makePseudoRandomBuffer hmac secret seed minLength =
      (psha1Blocks hmac secret seed (minLength / 20 + 1)).take minLength := by
  have h0 : pshaA hmac secret seed 0 = seed := rfl
  have hb0 : psha1Blocks hmac secret seed 0 = [] := by simp [psha1Blocks]
  have := prfLoop_eq hmac secret seed minLength hdig (minLength + 1) 0
    (by have := Nat.div_le_self minLength 20; omega)
  rw [h0, hb0] at this
  rw [makePseudoRandomBuffer, this]
  have hmax : max 0 (minLength / 20 + 1) = minLength / 20 + 1 := by omega
  rw [hmax]

theorem makePseudoRandomBuffer_length (hmac : Bytes → Bytes → Bytes) (secret seed : Bytes)
    (minLength : Nat) (hdig : ∀ m : Bytes, (hmac secret m).length = 20) :
    (makePseudoRandomBuffer hmac secret seed minLength).length = minLength := by
  rw [makePseudoRandomBuffer_eq hmac secret seed minLength hdig]
  rw [List.length_take, psha1Blocks_length hmac secret seed _ hdig]
  have : minLength < 20 * (minLength / 20 + 1) := Nat.lt_mul_div_succ minLength (by norm_num)
  omega

theorem psha1Blocks_prefix (hmac : Bytes → Bytes → Bytes) (secret seed : Bytes) :
    ∀ b n, b ≤ n → ∃ t, psha1Blocks hmac secret seed n = psha1Blocks hmac secret seed b ++ t := by
  intro b n
  induction n with
  | zero => intro h; exact ⟨[], by simp [Nat.le_zero.mp h]⟩
  | succ n ih =>
    intro h
    rcases Nat.lt_or_ge b (n + 1) with hlt | hge
    · obtain ⟨t, ht⟩ := ih (by omega)
      exact ⟨t ++ hmac secret (pshaA hmac secret seed (n + 1) ++ seed), by
        rw [psha1Blocks_succ, ht, List.append_assoc]⟩
    · have : b = n + 1 := by omega
      exact ⟨[], by simp [this]⟩

/-- **C1**: for every secret, seed and `minLength`, `makePseudoRandomBuffer`
returns exactly `minLength` bytes equal to the truncation of the P_SHA1
stream (`A(0) = seed`, `A(n) = HMAC_SHA1(secret, A(n-1))`, block `n` =
`HMAC_SHA1(secret, A(n) ++ seed)`); and for secret = 20 zero bytes,
seed = 20 bytes `0x01`, `minLength = 20` the result is
`HMAC_SHA1(secret, HMAC_SHA1(secret, seed) ++ seed)`.  The hypothesis is
the digest size of the runtime's HMAC-SHA1. -/
theorem C1_pseudoRandomStream (hmac : Bytes → Bytes → Bytes) (secret seed : Bytes)
    (minLength : Nat) (hdig : ∀ s m : Bytes, (hmac s m).length = 20) :
    (makePseudoRandomBuffer hmac secret seed minLength).length = minLength ∧
    (∀ n, minLength < 20 * n →
      makePseudoRandomBuffer hmac secret seed minLength =
        (psha1Blocks hmac secret seed n).take minLength) ∧
    makePseudoRandomBuffer hmac (List.replicate 20 0) (List.replicate 20 1) 20 =
      hmac (List.replicate 20 0)
        (hmac (List.replicate 20 0) (List.replicate 20 1) ++ List.replicate 20 1) := by
  refine ⟨makePseudoRandomBuffer_length hmac secret seed minLength (hdig secret), ?_, ?_⟩
  · intro n hn
    have hb : minLength / 20 + 1 ≤ n := by
      have : minLength / 20 < n := (Nat.div_lt_iff_lt_mul (by norm_num)).mpr (by omega)
      omega
    obtain ⟨t, ht⟩ := psha1Blocks_prefix hmac secret seed (minLength / 20 + 1) n hb
    rw [makePseudoRandomBuffer_eq hmac secret seed minLength (hdig secret), ht,
      List.take_append_of_le_length]
    rw [psha1Blocks_length hmac secret seed _ (hdig secret)]
    have : minLength < 20 * (minLength / 20 + 1) := Nat.lt_mul_div_succ minLength (by norm_num)
    omega
  · set z : Bytes := List.replicate 20 0 with hz
    set o : Bytes := List.replicate 20 1 with ho
    rw [makePseudoRandomBuffer_eq hmac z o 20 (hdig z)]
    have h2 : (20 : Nat) / 20 + 1 = 2 := by norm_num
    rw [h2, psha1Blocks_succ, psha1Blocks_succ]
    have h0 : psha1Blocks hmac z o 0 = [] := by simp [psha1Blocks]
    rw [h0, List.nil_append, List.take_append_of_le_length (by rw [hdig]),
      List.take_of_length_le (by rw [hdig])]
    rfl

/-- Witness for C1 at a concrete HMAC model and concrete inputs. -/
theorem C1_pseudoRandomStream_witness :
    (makePseudoRandomBuffer
        (fun s m => List.replicate 20 ((s.length + m.length) % 256)) [3] [4, 5] 7).length = 7 ∧
    makePseudoRandomBuffer
        (fun s m => List.replicate 20 ((s.length + m.length) % 256)) [3] [4, 5] 7 =
      (psha1Blocks (fun s m => List.replicate 20 ((s.length + m.length) % 256)) [3] [4, 5] 1).take 7 := by
  have h := C1_pseudoRandomStream (fun s m => List.replicate 20 ((s.length + m.length) % 256))
    [3] [4, 5] 7 (by intro s m; simp)
  exact ⟨h.1, h.2.1 1 (by norm_num)⟩

/-- **C2**: `computeDerivedKeys` draws
`signingKeyLength + encryptingKeyLength + encryptingBlockSize` bytes from
the PRF stream for `(secret, seed)` and returns the three consecutive,
disjoint slices of that stream, each of exactly the requested length, in
the order signing key, encrypting key, initialization vector. -/
theorem C2_deriveKeys_slicing (hmac : Bytes → Bytes → Bytes) (secret seed : Bytes)
    (opts : CryptoUtils.DerivedKeysOptions) (hdig : ∀ s m : Bytes, (hmac s m).length = 20) :
    (computeDerivedKeys hmac secret seed opts).signingKey =
      (makePseudoRandomBuffer hmac secret seed
        (opts.signingKeyLength + opts.encryptingKeyLength + opts.encryptingBlockSize)).take
        opts.signingKeyLength ∧
    (computeDerivedKeys hmac secret seed opts).encryptingKey =
      ((makePseudoRandomBuffer hmac secret seed
        (opts.signingKeyLength + opts.encryptingKeyLength + opts.encryptingBlockSize)).drop
        opts.signingKeyLength).take opts.encryptingKeyLength ∧
    (computeDerivedKeys hmac secret seed opts).initializationVector =
      ((makePseudoRandomBuffer hmac secret seed
        (opts.signingKeyLength + opts.encryptingKeyLength + opts.encryptingBlockSize)).drop
        (opts.signingKeyLength + opts.encryptingKeyLength)).take opts.encryptingBlockSize ∧
    (computeDerivedKeys hmac secret seed opts).signingKey.length = opts.signingKeyLength ∧
    (computeDerivedKeys hmac secret seed opts).encryptingKey.length = opts.encryptingKeyLength ∧
    (computeDerivedKeys hmac secret seed opts).initializationVector.length =
      opts.encryptingBlockSize ∧
    (computeDerivedKeys hmac secret seed opts).signingKey ++
        (computeDerivedKeys hmac secret seed opts).encryptingKey ++
        (computeDerivedKeys hmac secret seed opts).initializationVector =
      makePseudoRandomBuffer hmac secret seed
        (opts.signingKeyLength + opts.encryptingKeyLength + opts.encryptingBlockSize) := by
  set skl := opts.signingKeyLength
  set ekl := opts.encryptingKeyLength
  set ebs := opts.encryptingBlockSize
  set buf := makePseudoRandomBuffer hmac secret seed (skl + ekl + ebs) with hbuf
  have hlen : buf.length = skl + ekl + ebs := by
    rw [hbuf]
    exact makePseudoRandomBuffer_length hmac secret seed _ (hdig secret)
  have h1 : (computeDerivedKeys hmac secret seed opts).signingKey = buf.take skl := by
    show CryptoUtils.jsSlice buf 0 skl = buf.take skl
    simp [CryptoUtils.jsSlice]
  have h2 : (computeDerivedKeys hmac secret seed opts).encryptingKey =
      (buf.drop skl).take ekl := by
    show CryptoUtils.jsSlice buf skl (skl + ekl) = (buf.drop skl).take ekl
    simp [CryptoUtils.jsSlice]
  have h3 : (computeDerivedKeys hmac secret seed opts).initializationVector =
      (buf.drop (skl + ekl)).take ebs := by
    show CryptoUtils.jsSlice buf (skl + ekl) (skl + ekl + ebs) =
      (buf.drop (skl + ekl)).take ebs
    simp [CryptoUtils.jsSlice]
  refine ⟨h1, h2, h3, ?_, ?_, ?_, ?_⟩
  · rw [h1, List.length_take, hlen]; omega
  · rw [h2, List.length_take, List.length_drop, hlen]; omega
  · rw [h3, List.length_take, List.length_drop, hlen]; omega
  · rw [h1, h2, h3]
    have hiv : (buf.drop (skl + ekl)).take ebs = buf.drop (skl + ekl) := by
      apply List.take_of_length_le
      rw [List.length_drop, hlen]
      omega
    rw [hiv, List.append_assoc]
    have hmid : (buf.drop skl).take ekl ++ buf.drop (skl + ekl) = buf.drop skl := by
      have : buf.drop (skl + ekl) = (buf.drop skl).drop ekl := by
        rw [List.drop_drop, Nat.add_comm]
      rw [this, List.take_append_drop]
    rw [hmid, List.take_append_drop]

/-- Witness for C2 at a concrete HMAC model, nonces and length options. -/
theorem C2_deriveKeys_slicing_witness :
    (computeDerivedKeys (fun s m => List.replicate 20 ((s.length + m.length) % 256)) [9] [8]
        ⟨4, 6, 3, 20, "aes-128-cbc"⟩).signingKey.length = 4 ∧
    (computeDerivedKeys (fun s m => List.replicate 20 ((s.length + m.length) % 256)) [9] [8]
          ⟨4, 6, 3, 20, "aes-128-cbc"⟩).signingKey ++
        (computeDerivedKeys (fun s m => List.replicate 20 ((s.length + m.length) % 256)) [9] [8]
          ⟨4, 6, 3, 20, "aes-128-cbc"⟩).encryptingKey ++
        (computeDerivedKeys (fun s m => List.replicate 20 ((s.length + m.length) % 256)) [9] [8]
          ⟨4, 6, 3, 20, "aes-128-cbc"⟩).initializationVector =
      makePseudoRandomBuffer (fun s m => List.replicate 20 ((s.length + m.length) % 256))
        [9] [8] (4 + 6 + 3) := by
  have h := C2_deriveKeys_slicing (fun s m => List.replicate 20 ((s.length + m.length) % 256))
    [9] [8] ⟨4, 6, 3, 20, "aes-128-cbc"⟩ (by intro s m; simp)
  exact ⟨h.2.2.2.1, h.2.2.2.2.2.2⟩

set_option maxRecDepth 8192 in
/-- **C3, counterexample**: with a derived key set whose
`encryptingBlockSize` is 256 and a 255-byte plaintext, the padding length
is 256, `Buffer.fill` stores it as the byte `0`, and `removePadding` then
strips only one byte instead of 257, so the claimed round trip fails. -/
theorem C3_counterexample :
    removePadding (List.replicate 255 0 ++
        computePaddingFooter (List.replicate 255 0)
          ⟨[], [], [], 0, 0, 256, 20, "aes-128-cbc"⟩) ≠
      List.replicate 255 0 := by
  decide

/-- **C3, amended**: for every plaintext `p` and derived key set whose
block size `B` satisfies `1 ≤ B ≤ 255` (so that the padding length fits in
the single byte that encodes it), `computePaddingFooter` returns exactly
`paddingLength + 1` bytes, each equal to
`paddingLength = B - ((p.length + 1) % B)`, and `removePadding` applied to
`p ++ footer` returns exactly `p`. -/
theorem C3_padding_roundtrip (p : Bytes) (dk : CryptoUtils.DerivedKeys)
    (hB1 : 1 ≤ dk.encryptingBlockSize) (hB2 : dk.encryptingBlockSize ≤ 255) :
    (computePaddingFooter p dk).length =
      dk.encryptingBlockSize - (p.length + 1) % dk.encryptingBlockSize + 1 ∧
    (∀ x ∈ computePaddingFooter p dk,
      x = dk.encryptingBlockSize - (p.length + 1) % dk.encryptingBlockSize) ∧
    removePadding (p ++ computePaddingFooter p dk) = p := by
  set B := dk.encryptingBlockSize with hBdef
  set ps := B - (p.length + 1) % B with hps
  have hpslt : ps < 256 := by omega
  have hfoot : computePaddingFooter p dk = List.replicate (ps + 1) ps := by
    rw [computePaddingFooter]
    rw [Nat.mod_eq_of_lt hpslt]
  refine ⟨by rw [hfoot]; simp, ?_, ?_⟩
  · intro x hx
    rw [hfoot] at hx
    exact List.eq_of_mem_replicate hx
  · rw [hfoot, removePadding, reduceLength]
    have hlen : (p ++ List.replicate (ps + 1) ps).length = p.length + (ps + 1) := by simp
    have hlast : (p ++ List.replicate (ps + 1) ps).getD
        ((p ++ List.replicate (ps + 1) ps).length - 1) 0 = ps := by
      rw [hlen]
      have h1 : p.length + (ps + 1) - 1 = p.length + ps := by omega
      rw [h1, List.getD_append_right p _ _ _ (by omega)]
      have h2 : p.length + ps - p.length = ps := by omega
      rw [h2]
      have h3 : ps < (List.replicate (ps + 1) ps).length := by simp
      rw [List.getD_eq_getElem _ _ h3, List.getElem_replicate]
    rw [hlast, hlen]
    have h4 : p.length + (ps + 1) - (ps + 1) = p.length := by omega
    rw [h4, List.take_append_of_le_length (le_refl p.length), List.take_length]

/-- Witness for C3 (amended) at block size 16 and a 3-byte plaintext. -/
theorem C3_padding_roundtrip_witness :
    removePadding ([1, 2, 3] ++
        computePaddingFooter [1, 2, 3] ⟨[], [], [], 0, 0, 16, 20, "aes-128-cbc"⟩) =
      [1, 2, 3] := by
  exact (C3_padding_roundtrip [1, 2, 3] ⟨[], [], [], 0, 0, 16, 20, "aes-128-cbc"⟩
    (by norm_num) (by norm_num)).2.2

theorem hexDigit_inj : ∀ a b : Nat, a < 16 → b < 16 → hexDigit a = hexDigit b → a = b := by
  have hfin : ∀ x y : Fin 16, hexDigit x.val = hexDigit y.val → x.val = y.val := by decide
  intro a b ha hb h
  exact hfin ⟨a, ha⟩ ⟨b, hb⟩ h

theorem hexOfBytes_inj : ∀ a b : Bytes, (∀ x ∈ a, x < 256) → (∀ x ∈ b, x < 256) →
    hexOfBytes a = hexOfBytes b → a = b := by
  intro a
  induction a with
  | nil =>
    intro b _ hb h
    cases b with
    | nil => rfl
    | cons y u => simp [hexOfBytes] at h
  | cons x t ih =>
    intro b ha hb h
    cases b with
    | nil => simp [hexOfBytes] at h
    | cons y u =>
      simp only [hexOfBytes, List.flatMap_cons, List.cons_append, List.nil_append,
        List.cons.injEq] at h
      obtain ⟨h1, h2, h3⟩ := h
      have hx : x < 256 := ha x (by simp)
      have hy : y < 256 := hb y (by simp)
      have hxm : x % 256 = x := Nat.mod_eq_of_lt hx
      have hym : y % 256 = y := Nat.mod_eq_of_lt hy
      rw [hxm, hym] at h1
      have e1 : x / 16 = y / 16 := hexDigit_inj _ _ (by omega) (by omega) h1
      have e2 : x % 16 = y % 16 := hexDigit_inj _ _ (by omega) (by omega) h2
      have hxy : x = y := by omega
      have ht : t = u := ih u (fun z hz => ha z (by simp [hz])) (fun z hz => hb z (by simp [hz]))
        h3
      rw [hxy, ht]

/-- Splitting behaviour of the verifier on a chunk whose trailing part
has exactly `signatureLength` bytes, for nonzero (truthy)
`signatureLength`, where the signer's evaluated assert passes. -/
theorem verifyChunk_split (hmac : Bytes → Bytes → Bytes) (dk : CryptoUtils.DerivedKeys)
    (m s : Bytes) (hs : s.length = dk.signatureLength) (hnz : ¬dk.signatureLength = 0) :
    verifyChunkSignatureWithDerivedKeys hmac (m ++ s) dk =
      some (decide (hexOfBytes (hmac dk.signingKey m) = hexOfBytes s)) := by
  simp only [verifyChunkSignatureWithDerivedKeys, makeMessageChunkSignatureWithDerivedKeys,
    if_neg hnz]
  have hlen : (m ++ s).length - dk.signatureLength = m.length := by
    simp [hs]
  rw [hlen, List.take_append_of_le_length (le_refl m.length), List.take_length,
    List.drop_left]

/-- **C4, counterexample**: the claim quantifies over every derived key
set, but for a key set whose `signatureLength` (5 here — truthy, so the
signer's evaluated assert passes and a signature is produced) differs
from the 20-byte HMAC-SHA1 digest length, the verifier splits the chunk
at the wrong offset and verification of `message ++ signature` returns
`false` instead of `true`. -/
theorem C4_counterexample :
    makeMessageChunkSignatureWithDerivedKeys
        (fun k msg => List.replicate 20 ((k.length + msg.length) % 256)) [1, 2, 3]
        ⟨[5], [], [], 0, 0, 16, 5, "aes-128-cbc"⟩ = some (List.replicate 20 4) ∧
    verifyChunkSignatureWithDerivedKeys
        (fun k msg => List.replicate 20 ((k.length + msg.length) % 256))
        ([1, 2, 3] ++ List.replicate 20 4)
        ⟨[5], [], [], 0, 0, 16, 5, "aes-128-cbc"⟩ = some false := by
  refine ⟨by decide, by decide⟩

/-- **C4, amended**: for every derived key set whose `signatureLength`
equals the HMAC-SHA1 digest length (20), signing succeeds and
verification of `message ++ signature(message)` returns `true`; altering
any byte of the signature part makes it return `false`; and altering the
message part makes it return `false` whenever the HMAC of the altered
message differs from that of the original (which is exactly the
collision-resistance expectation on HMAC-SHA1, not provable of the
abstract primitive). -/
theorem C4_signature_roundtrip (hmac : Bytes → Bytes → Bytes) (dk : CryptoUtils.DerivedKeys)
    (m : Bytes)
    (hdig : ∀ k msg : Bytes, (hmac k msg).length = 20 ∧ ∀ x ∈ hmac k msg, x < 256)
    (hsig : dk.signatureLength = 20) :
    (∀ sig : Bytes, makeMessageChunkSignatureWithDerivedKeys hmac m dk = some sig →
      verifyChunkSignatureWithDerivedKeys hmac (m ++ sig) dk = some true) ∧
    (∀ sig : Bytes, ∀ i bNew : Nat,
      makeMessageChunkSignatureWithDerivedKeys hmac m dk = some sig →
      i < 20 → bNew < 256 → bNew ≠ sig.getD i 0 →
      verifyChunkSignatureWithDerivedKeys hmac (m ++ sig.set i bNew) dk = some false) ∧
    (∀ sig mAlt : Bytes, makeMessageChunkSignatureWithDerivedKeys hmac m dk = some sig →
      hmac dk.signingKey mAlt ≠ hmac dk.signingKey m →
      verifyChunkSignatureWithDerivedKeys hmac (mAlt ++ sig) dk = some false) := by
  have hnz : ¬dk.signatureLength = 0 := by rw [hsig]; norm_num
  have hsome : makeMessageChunkSignatureWithDerivedKeys hmac m dk =
      some (hmac dk.signingKey m) := by
    simp only [makeMessageChunkSignatureWithDerivedKeys, if_neg hnz]
  have hsiglen : (hmac dk.signingKey m).length = dk.signatureLength := by
    rw [hsig]
    exact (hdig dk.signingKey m).1
  refine ⟨?_, ?_, ?_⟩
  · intro sig hsg
    rw [hsome] at hsg
    injection hsg with hsg
    subst hsg
    rw [verifyChunk_split hmac dk m _ hsiglen hnz]
    simp
  · intro sig i bNew hsg hi hb hne
    rw [hsome] at hsg
    injection hsg with hsg
    subst hsg
    have hilt : i < (hmac dk.signingKey m).length := by
      rw [hsiglen, hsig]
      exact hi
    have hsetlen : ((hmac dk.signingKey m).set i bNew).length = dk.signatureLength := by
      rw [List.length_set]
      exact hsiglen
    rw [verifyChunk_split hmac dk m _ hsetlen hnz]
    have hfalse : decide (hexOfBytes (hmac dk.signingKey m) =
        hexOfBytes ((hmac dk.signingKey m).set i bNew)) = false := by
      apply decide_eq_false
      intro hhex
      have hebytes : ∀ x ∈ (hmac dk.signingKey m).set i bNew, x < 256 := by
        intro x hx
        rcases List.mem_or_eq_of_mem_set hx with hmem | hset
        · exact (hdig dk.signingKey m).2 x hmem
        · omega
      have heq : hmac dk.signingKey m = (hmac dk.signingKey m).set i bNew :=
        hexOfBytes_inj _ _ (hdig dk.signingKey m).2 hebytes hhex
      have hat : (hmac dk.signingKey m).getD i 0 = bNew := by
        conv_lhs => rw [heq]
        rw [List.getD_eq_getElem _ _ (by rw [List.length_set]; exact hilt)]
        simp
      exact hne hat.symm
    rw [hfalse]
  · intro sig mAlt hsg hne
    rw [hsome] at hsg
    injection hsg with hsg
    subst hsg
    rw [verifyChunk_split hmac dk mAlt _ hsiglen hnz]
    have hfalse : decide (hexOfBytes (hmac dk.signingKey mAlt) =
        hexOfBytes (hmac dk.signingKey m)) = false := by
      apply decide_eq_false
      intro hhex
      exact hne (hexOfBytes_inj _ _ (hdig dk.signingKey mAlt).2
        (hdig dk.signingKey m).2 hhex)
    rw [hfalse]

/-- Witness for C4 (amended) at a concrete HMAC model: round trip
verifies, a corrupted signature byte fails, a message with a different
digest fails. -/
theorem C4_signature_roundtrip_witness :
    verifyChunkSignatureWithDerivedKeys
        (fun k msg => List.replicate 20 ((k.length + msg.length + msg.headD 0) % 256))
        ([7] ++ List.replicate 20 9)
        ⟨[5], [], [], 0, 0, 16, 20, "aes-128-cbc"⟩ = some true ∧
    verifyChunkSignatureWithDerivedKeys
        (fun k msg => List.replicate 20 ((k.length + msg.length + msg.headD 0) % 256))
        ([7] ++ (List.replicate 20 9).set 0 1)
        ⟨[5], [], [], 0, 0, 16, 20, "aes-128-cbc"⟩ = some false ∧
    verifyChunkSignatureWithDerivedKeys
        (fun k msg => List.replicate 20 ((k.length + msg.length + msg.headD 0) % 256))
        ([8] ++ List.replicate 20 9)
        ⟨[5], [], [], 0, 0, 16, 20, "aes-128-cbc"⟩ = some false := by
  have h := C4_signature_roundtrip
    (fun k msg => List.replicate 20 ((k.length + msg.length + msg.headD 0) % 256))
    ⟨[5], [], [], 0, 0, 16, 20, "aes-128-cbc"⟩ [7]
    (by
      intro k msg
      refine ⟨by simp, ?_⟩
      intro x hx
      have := List.eq_of_mem_replicate hx
      omega)
    rfl
  exact ⟨h.1 (List.replicate 20 9) (by decide),
    h.2.1 (List.replicate 20 9) 0 1 (by decide) (by decide) (by decide) (by decide),
    h.2.2 (List.replicate 20 9) [8] (by decide) (by decide)⟩

/-- **C5**: whenever `makeMessageChunkSignatureWithDerivedKeys` returns,
it returns the 20-byte HMAC-SHA1 digest; for a derived key set with
`signatureLength = 10`, the evaluated assert passes (10 is truthy)
without comparing any lengths, and the returned signature has length 20,
not `derivedKeys.signatureLength`, because the length assertion in the
source uses `=` (assignment) instead of `===`. -/
theorem C5_signature_length_bug :
    makeMessageChunkSignatureWithDerivedKeys
        (fun k msg => List.replicate 20 ((k.length + msg.length) % 256)) [1, 2, 3]
        ⟨[5], [], [], 0, 0, 16, 10, "aes-128-cbc"⟩ =
      some ((fun k msg => List.replicate 20 ((k.length + msg.length) % 256))
        (⟨[5], [], [], 0, 0, 16, 10, "aes-128-cbc"⟩ : CryptoUtils.DerivedKeys).signingKey
        [1, 2, 3]) ∧
    ((fun k msg => List.replicate 20 ((k.length + msg.length) % 256))
        (⟨[5], [], [], 0, 0, 16, 10, "aes-128-cbc"⟩ : CryptoUtils.DerivedKeys).signingKey
        [1, 2, 3]).length = 20 ∧
    (⟨[5], [], [], 0, 0, 16, 10, "aes-128-cbc"⟩ : CryptoUtils.DerivedKeys).signatureLength =
      10 := by
  refine ⟨by decide, by decide, rfl⟩

/-- **C6, counterexample**: `computeDerivedKeys` succeeds for
`algorithm = "des"`, returning a fully populated key set that echoes the
unchecked algorithm string; the `aes-128-cbc`/`aes-256-cbc` restriction is
only enforced later, by `derivedKeys_algorithm`. -/
theorem C6_counterexample :
    (computeDerivedKeys (fun k msg => List.replicate 20 ((k.length + msg.length) % 256))
        [1] [2] ⟨4, 6, 3, 20, "des"⟩).algorithm = "des" ∧
    (computeDerivedKeys (fun k msg => List.replicate 20 ((k.length + msg.length) % 256))
        [1] [2] ⟨4, 6, 3, 20, "des"⟩).signingKey.length = 4 ∧
    derivedKeys_algorithm (computeDerivedKeys
        (fun k msg => List.replicate 20 ((k.length + msg.length) % 256))
        [1] [2] ⟨4, 6, 3, 20, "des"⟩) = none := by
  refine ⟨rfl, by decide, by decide⟩

/-- **C6, amended**: `computeDerivedKeys` itself performs no validation of
`options.algorithm` (it returns a key set echoing it verbatim); the fatal
configuration check lives in `derivedKeys_algorithm`, used by the
symmetric encrypt/decrypt paths, which fails exactly when the algorithm is
neither empty (defaulted to `aes-128-cbc`), `aes-128-cbc`, nor
`aes-256-cbc`. -/
theorem C6_algorithm_check (hmac : Bytes → Bytes → Bytes) (secret seed : Bytes)
    (opts : CryptoUtils.DerivedKeysOptions) :
    (computeDerivedKeys hmac secret seed opts).algorithm = opts.algorithm ∧
    (derivedKeys_algorithm (computeDerivedKeys hmac secret seed opts) = none ↔
      opts.algorithm ∉ (["", "aes-128-cbc", "aes-256-cbc"] : List String)) := by
  have halg : (computeDerivedKeys hmac secret seed opts).algorithm = opts.algorithm := rfl
  refine ⟨halg, ?_⟩
  simp only [derivedKeys_algorithm, halg]
  by_cases h1 : opts.algorithm = ""
  · simp [h1]
  · rw [if_neg h1]
    by_cases h2 : opts.algorithm = "aes-128-cbc"
    · simp [h2]
    · by_cases h3 : opts.algorithm = "aes-256-cbc"
      · simp [h3]
      · simp [h1, h2, h3]

theorem ceil_div_succ (len w : Nat) (hw : 0 < w) (hlen : 0 < len) :
    (len + w - 1) / w = 1 + (len - w + w - 1) / w := by
  have h1 : len + w - 1 = (len - 1) + w := by omega
  rw [h1, Nat.add_div_right _ hw]
  rcases le_or_lt len w with hle | hlt
  · have h2 : len - w = 0 := by omega
    rw [h2]
    have h3 : (len - 1) / w = 0 := Nat.div_eq_of_lt (by omega)
    have h4 : (0 + w - 1) / w = 0 := Nat.div_eq_of_lt (by omega)
    omega
  · have h2 : len - w + w - 1 = len - 1 := by omega
    rw [h2]
    omega

theorem chunkedMap_nil (f : Bytes → Bytes) (w : Nat) : chunkedMap f w [] = [] := by
  have h : (w - 1) / w = 0 := by
    cases w with
    | zero => simp
    | succ n => exact Nat.div_eq_of_lt (by omega)
  simp [chunkedMap, h]

theorem chunkedMap_cons (f : Bytes → Bytes) (w : Nat) (b : Bytes) (hw : 0 < w)
    (hb : b ≠ []) :
    chunkedMap f w b = f (b.take w) ++ chunkedMap f w (b.drop w) := by
  have hlen : 0 < b.length := List.length_pos.mpr hb
  have hceil : (b.length + w - 1) / w = 1 + ((b.drop w).length + w - 1) / w := by
    rw [List.length_drop]
    exact ceil_div_succ b.length w hw hlen
  simp only [chunkedMap]
  rw [hceil, Nat.add_comm 1 _, List.range_succ_eq_map, List.map_cons, List.map_map,
    List.flatten_cons]
  have hhead : f ((b.drop (w * 0)).take w) = f (b.take w) := by
    norm_num
  rw [hhead]
  have hmap : List.map ((fun i => f (List.take w (List.drop (w * i) b))) ∘ Nat.succ)
        (List.range (((List.drop w b).length + w - 1) / w)) =
      List.map (fun i => f (List.take w (List.drop (w * i) (List.drop w b))))
        (List.range (((List.drop w b).length + w - 1) / w)) := by
    apply List.map_congr_left
    intro i _
    show f ((b.drop (w * (i + 1))).take w) = f (((b.drop w).drop (w * i)).take w)
    rw [List.drop_drop]
    have hwi : w * (i + 1) = w * i + w := by ring
    rw [hwi, Nat.add_comm (w * i) w]
  rw [hmap]

theorem chunkedMap_exact_block (f : Bytes → Bytes) (w : Nat) (x y : Bytes) (hw : 0 < w)
    (hx : x.length = w) :
    chunkedMap f w (x ++ y) = f x ++ chunkedMap f w y := by
  have hne : x ++ y ≠ [] := by
    intro h
    have := congrArg List.length h
    simp [hx] at this
    omega
  rw [chunkedMap_cons f w (x ++ y) hw hne]
  have ht : (x ++ y).take w = x := by
    rw [← hx, List.take_append_of_le_length (le_refl x.length), List.take_length]
  have hd : (x ++ y).drop w = y := by
    rw [← hx, List.drop_left]
  rw [ht, hd]

theorem publicEncrypt_long_length (encrypt : Bytes → Bytes) (block_size padding : Nat)
    (hcs : 0 < block_size - padding)
    (henc : ∀ c : Bytes, c.length ≤ block_size - padding → (encrypt c).length = block_size) :
    ∀ n (b : Bytes), b.length ≤ n →
      (publicEncrypt_long encrypt b block_size padding).length =
        ((b.length + (block_size - padding) - 1) / (block_size - padding)) * block_size := by
  intro n
  induction n with
  | zero =>
    intro b hb
    have : b = [] := List.length_eq_zero.mp (by omega)
    subst this
    rw [publicEncrypt_long, chunkedMap_nil]
    have h : (block_size - padding - 1) / (block_size - padding) = 0 :=
      Nat.div_eq_of_lt (by omega)
    simp [h]
  | succ n ih =>
    intro b hb
    by_cases hbe : b = []
    · subst hbe
      rw [publicEncrypt_long, chunkedMap_nil]
      have h : (block_size - padding - 1) / (block_size - padding) = 0 :=
        Nat.div_eq_of_lt (by omega)
      simp [h]
    · have hlen : 0 < b.length := List.length_pos.mpr hbe
      rw [publicEncrypt_long, chunkedMap_cons encrypt _ b hcs hbe]
      have hrec := ih (b.drop (block_size - padding))
        (by rw [List.length_drop]; omega)
      rw [publicEncrypt_long] at hrec
      rw [List.length_append, hrec, List.length_drop,
        henc _ (by rw [List.length_take]; omega),
        ceil_div_succ b.length (block_size - padding) hcs hlen]
      ring

/-- **C7**: for a matching RSA key pair (modelled by an `encrypt` backend
producing `block_size`-byte blocks from chunks of at most
`block_size - padding` bytes, and a `decrypt` backend inverting it),
`privateDecrypt_long` recovers exactly the original buffer from
`publicEncrypt_long`, which itself emits
`ceil(len / (block_size - padding))` ciphertext blocks of `block_size`
bytes each, concatenated in order with no trailing slack. -/
theorem C7_chunked_rsa_roundtrip (encrypt decrypt : Bytes → Bytes) (b : Bytes)
    (block_size padding : Nat) (hcs : 0 < block_size - padding)
    (henc : ∀ c : Bytes, c.length ≤ block_size - padding → (encrypt c).length = block_size)
    (hdec : ∀ c : Bytes, c.length ≤ block_size - padding → decrypt (encrypt c) = c) :
    privateDecrypt_long decrypt (publicEncrypt_long encrypt b block_size padding)
        block_size = b ∧
    (publicEncrypt_long encrypt b block_size padding).length =
      ((b.length + (block_size - padding) - 1) / (block_size - padding)) * block_size := by
  have hbs : 0 < block_size := by omega
  refine ⟨?_, publicEncrypt_long_length encrypt block_size padding hcs henc b.length b
    (le_refl _)⟩
  have main : ∀ n (c : Bytes), c.length ≤ n →
      privateDecrypt_long decrypt (publicEncrypt_long encrypt c block_size padding)
        block_size = c := by
    intro n
    induction n with
    | zero =>
      intro c hc
      have : c = [] := List.length_eq_zero.mp (by omega)
      subst this
      rw [publicEncrypt_long, chunkedMap_nil, privateDecrypt_long, chunkedMap_nil]
    | succ n ih =>
      intro c hc
      by_cases hce : c = []
      · subst hce
        rw [publicEncrypt_long, chunkedMap_nil, privateDecrypt_long, chunkedMap_nil]
      · have hlen : 0 < c.length := List.length_pos.mpr hce
        rw [publicEncrypt_long, chunkedMap_cons encrypt _ c hcs hce]
        have hhead : (encrypt (c.take (block_size - padding))).length = block_size :=
          henc _ (by rw [List.length_take]; omega)
        rw [privateDecrypt_long,
          chunkedMap_exact_block decrypt block_size _ _ hbs hhead]
        have htail := ih (c.drop (block_size - padding))
          (by rw [List.length_drop]; omega)
        rw [publicEncrypt_long, privateDecrypt_long] at htail
        rw [htail, hdec _ (by rw [List.length_take]; omega), List.take_append_drop]
  exact main b.length b (le_refl _)

/-- Witness for C7 with a concrete invertible backend (`block_size = 3`,
`padding = 1`: a chunk of at most 2 bytes is stored as its length followed
by the padded chunk). -/
theorem C7_chunked_rsa_roundtrip_witness :
    privateDecrypt_long
        (fun c => (c.drop 1).take (c.headD 0))
        (publicEncrypt_long (fun c => c.length :: (c ++ List.replicate (2 - c.length) 0))
          [5, 6, 7] 3 1) 3 = [5, 6, 7] ∧
    (publicEncrypt_long (fun c => c.length :: (c ++ List.replicate (2 - c.length) 0))
        [5, 6, 7] 3 1).length = 6 := by
  have h := C7_chunked_rsa_roundtrip
    (fun c => c.length :: (c ++ List.replicate (2 - c.length) 0))
    (fun c => (c.drop 1).take (c.headD 0)) [5, 6, 7] 3 1 (by norm_num)
    (by
      intro c hc
      simp only [List.length_cons, List.length_append, List.length_replicate]
      omega)
    (by
      intro c hc
      simp only [List.headD_cons, List.drop_one, List.tail_cons]
      rw [List.take_append_of_le_length (le_refl c.length), List.take_length])
  exact ⟨h.1, h.2⟩

theorem b64ValueOf_b64CharOf_fin : ∀ n : Fin 64, b64ValueOf (b64CharOf n.val) = n.val := by
  decide

theorem b64CharOf_ne_eqChar_fin : ∀ n : Fin 64, b64CharOf n.val ≠ '=' := by
  decide

theorem b64CharOf_body_fin :
    ∀ n : Fin 64, isPemBodyChar (b64CharOf n.val) = true ∧ b64CharOf n.val ≠ '\n' := by
  decide

theorem b64ValueOf_b64CharOf (n : Nat) (h : n < 64) : b64ValueOf (b64CharOf n) = n :=
  b64ValueOf_b64CharOf_fin ⟨n, h⟩

theorem b64CharOf_ne_eqChar (n : Nat) (h : n < 64) : b64CharOf n ≠ '=' :=
  b64CharOf_ne_eqChar_fin ⟨n, h⟩

theorem base64Decode_base64Encode :
    ∀ b : Bytes, (∀ x ∈ b, x < 256) → base64Decode (base64Encode b) = b := by
  intro b
  induction b using CryptoUtils.base64Encode.induct with
  | case1 => intro _; rfl
  | case2 b1 =>
    intro hb
    have h1 : b1 < 256 := hb b1 (by simp)
    rw [base64Encode, base64Decode, if_pos rfl,
      b64ValueOf_b64CharOf _ (by omega), b64ValueOf_b64CharOf _ (by omega)]
    simp only [List.cons.injEq, and_true]
    omega
  | case3 b1 b2 =>
    intro hb
    have h1 : b1 < 256 := hb b1 (by simp)
    have h2 : b2 < 256 := hb b2 (by simp)
    rw [base64Encode, base64Decode, if_neg (b64CharOf_ne_eqChar _ (by omega)), if_pos rfl,
      b64ValueOf_b64CharOf _ (by omega), b64ValueOf_b64CharOf _ (by omega),
      b64ValueOf_b64CharOf _ (by omega)]
    simp only [List.cons.injEq, and_true]
    constructor
    · omega
    · omega
  | case4 b1 b2 b3 rest ih =>
    intro hb
    have h1 : b1 < 256 := hb b1 (by simp)
    have h2 : b2 < 256 := hb b2 (by simp)
    have h3 : b3 < 256 := hb b3 (by simp)
    rw [base64Encode, base64Decode, if_neg (b64CharOf_ne_eqChar _ (by omega)),
      if_neg (b64CharOf_ne_eqChar _ (by omega)),
      b64ValueOf_b64CharOf _ (by omega), b64ValueOf_b64CharOf _ (by omega),
      b64ValueOf_b64CharOf _ (by omega), b64ValueOf_b64CharOf _ (by omega),
      ih (fun x hx => hb x (by simp [hx]))]
    simp only [List.cons.injEq, and_true]
    refine ⟨by omega, by omega, by omega⟩

theorem base64Encode_chars :
    ∀ b : Bytes, (∀ x ∈ b, x < 256) →
      ∀ c ∈ base64Encode b, isPemBodyChar c = true ∧ c ≠ '\n' := by
  intro b
  induction b using CryptoUtils.base64Encode.induct with
  | case1 => intro _ c hc; simp [base64Encode] at hc
  | case2 b1 =>
    intro hb c hc
    have h1 : b1 < 256 := hb b1 (by simp)
    rw [base64Encode] at hc
    simp only [List.mem_cons, List.not_mem_nil, or_false] at hc
    rcases hc with rfl | rfl | rfl | rfl
    · exact b64CharOf_body_fin ⟨_, by omega⟩
    · exact b64CharOf_body_fin ⟨_, by omega⟩
    · exact ⟨by decide, by decide⟩
    · exact ⟨by decide, by decide⟩
  | case3 b1 b2 =>
    intro hb c hc
    have h1 : b1 < 256 := hb b1 (by simp)
    have h2 : b2 < 256 := hb b2 (by simp)
    rw [base64Encode] at hc
    simp only [List.mem_cons, List.not_mem_nil, or_false] at hc
    rcases hc with rfl | rfl | rfl | rfl
    · exact b64CharOf_body_fin ⟨_, by omega⟩
    · exact b64CharOf_body_fin ⟨_, by omega⟩
    · exact b64CharOf_body_fin ⟨_, by omega⟩
    · exact ⟨by decide, by decide⟩
  | case4 b1 b2 b3 rest ih =>
    intro hb c hc
    have h1 : b1 < 256 := hb b1 (by simp)
    have h2 : b2 < 256 := hb b2 (by simp)
    have h3 : b3 < 256 := hb b3 (by simp)
    rw [base64Encode] at hc
    simp only [List.mem_cons] at hc
    rcases hc with rfl | rfl | rfl | rfl | hc
    · exact b64CharOf_body_fin ⟨_, by omega⟩
    · exact b64CharOf_body_fin ⟨_, by omega⟩
    · exact b64CharOf_body_fin ⟨_, by omega⟩
    · exact b64CharOf_body_fin ⟨_, by omega⟩
    · exact ih (fun x hx => hb x (by simp [hx])) c hc

theorem base64Encode_ne_nil : ∀ b : Bytes, b ≠ [] → base64Encode b ≠ [] := by
  intro b hb
  match b, hb with
  | [b1], _ => simp [base64Encode]
  | [b1, b2], _ => simp [base64Encode]
  | b1 :: b2 :: b3 :: rest, _ => simp [base64Encode]

theorem takeWhile_append_all (p : Char → Bool) :
    ∀ A B : List Char, (∀ a ∈ A, p a = true) →
      (A ++ B).takeWhile p = A ++ B.takeWhile p ∧ (A ++ B).dropWhile p = B.dropWhile p := by
  intro A
  induction A with
  | nil => intro B _; simp
  | cons a A ih =>
    intro B hA
    have hpa : p a = true := hA a (by simp)
    have hrec := ih B (fun x hx => hA x (by simp [hx]))
    simp only [List.cons_append, List.takeWhile_cons, List.dropWhile_cons, hpa, if_true]
    exact ⟨by rw [hrec.1], by rw [hrec.2]⟩

theorem chunkLines_nil : chunkLines [] = [] := by
  rw [chunkLines]
  simp

theorem linesOf_nil : linesOf [] = [] := by
  rw [linesOf]
  simp

theorem splitNl_append (A B : List Char) (hA : '\n' ∉ A) :
    splitNl (A ++ '\n' :: B) = A :: splitNl B := by
  induction A with
  | nil => rw [List.nil_append, splitNl, if_pos rfl]
  | cons c A ih =>
    have hc : ¬c = '\n' := fun h => hA (by simp [h])
    have hA2 : '\n' ∉ A := fun h => hA (by simp [h])
    rw [List.cons_append, splitNl, if_neg hc, ih hA2]

theorem splitNl_chunkLines :
    ∀ n (e : List Char), e.length ≤ n → (∀ c ∈ e, c ≠ '\n') → ∀ rest : List Char,
      splitNl (chunkLines e ++ rest) = linesOf e ++ splitNl rest := by
  intro n
  induction n with
  | zero =>
    intro e he _ rest
    have : e = [] := List.length_eq_zero.mp (by omega)
    subst this
    rw [chunkLines_nil, linesOf_nil, List.nil_append, List.nil_append]
  | succ n ih =>
    intro e he hnl rest
    by_cases hne : e = []
    · subst hne
      rw [chunkLines_nil, linesOf_nil, List.nil_append, List.nil_append]
    · have hlen : 0 < e.length := List.length_pos.mpr hne
      rw [chunkLines, dif_neg hne, linesOf, dif_neg hne]
      have hassoc : (e.take 64 ++ '\n' :: chunkLines (e.drop 64)) ++ rest =
          e.take 64 ++ '\n' :: (chunkLines (e.drop 64) ++ rest) := by
        rw [List.append_assoc, List.cons_append]
      rw [hassoc, splitNl_append _ _ (fun h => hnl '\n' (List.take_subset 64 e h) rfl),
        ih (e.drop 64) (by rw [List.length_drop]; omega)
          (fun c hc => hnl c (List.drop_subset 64 e hc)) rest,
        List.cons_append]

theorem linesOf_flatten :
    ∀ n (e : List Char), e.length ≤ n → (linesOf e).flatten = e := by
  intro n
  induction n with
  | zero =>
    intro e he
    have : e = [] := List.length_eq_zero.mp (by omega)
    subst this
    rw [linesOf_nil]
    rfl
  | succ n ih =>
    intro e he
    by_cases hne : e = []
    · subst hne
      rw [linesOf_nil]
      rfl
    · have hlen : 0 < e.length := List.length_pos.mpr hne
      rw [linesOf, dif_neg hne, List.flatten_cons,
        ih (e.drop 64) (by rw [List.length_drop]; omega), List.take_append_drop]

theorem chunkLines_getLast :
    ∀ n (e : List Char), e.length ≤ n → e ≠ [] → (chunkLines e).getLast? = some '\n' := by
  intro n
  induction n with
  | zero =>
    intro e he hne
    exact absurd (List.length_eq_zero.mp (by omega)) hne
  | succ n ih =>
    intro e he hne
    have hlen : 0 < e.length := List.length_pos.mpr hne
    rw [chunkLines, dif_neg hne]
    by_cases hd : e.drop 64 = []
    · rw [hd, chunkLines_nil, List.getLast?_concat]
    · have hrec := ih (e.drop 64) (by rw [List.length_drop]; omega) hd
      rw [List.getLast?_append]
      have hcons : ('\n' :: chunkLines (e.drop 64)).getLast? = some '\n' := by
        have : ('\n' :: chunkLines (e.drop 64)) = ['\n'] ++ chunkLines (e.drop 64) := rfl
        rw [this, List.getLast?_append, hrec]
        rfl
      rw [hcons]
      rfl

theorem pemMatchHeader_tagged (T : List Char) :
    pemMatchHeader (beginTag ++ T ++ dashes5) = some T := by
  have hlast : (beginTag ++ T ++ dashes5).getLast? = some '-' := by
    rw [List.append_assoc, List.getLast?_append, List.getLast?_append]
    rfl
  have hdrop : (beginTag ++ T ++ dashes5).drop 11 = T ++ dashes5 := by
    rw [List.append_assoc, show (11 : Nat) = beginTag.length from rfl, List.drop_left]
  have hpre : beginTag.isPrefixOf (beginTag ++ T ++ dashes5) = true := by
    rw [List.isPrefixOf_iff_prefix, List.append_assoc]
    exact List.prefix_append _ _
  have hsuf : dashes5.isSuffixOf (T ++ dashes5) = true := by
    rw [List.isSuffixOf_iff_suffix]
    exact List.suffix_append _ _
  have hty : (T ++ dashes5).take ((T ++ dashes5).length - 5) = T := by
    rw [List.length_append, show dashes5.length = 5 from rfl, Nat.add_sub_cancel,
      List.take_append_of_le_length (le_refl _), List.take_length]
  simp only [pemMatchHeader, hlast]
  rw [if_neg (show ¬(some '-' = some '\r') by decide), hdrop, if_pos ⟨hpre, hsuf⟩, hty]

theorem chunkLines_chars :
    ∀ n (e : List Char), e.length ≤ n → ∀ c ∈ chunkLines e, c ∈ e ∨ c = '\n' := by
  intro n
  induction n with
  | zero =>
    intro e he c hc
    have : e = [] := List.length_eq_zero.mp (by omega)
    subst this
    rw [chunkLines_nil] at hc
    simp at hc
  | succ n ih =>
    intro e he c hc
    by_cases hne : e = []
    · subst hne
      rw [chunkLines_nil] at hc
      simp at hc
    · have hlen : 0 < e.length := List.length_pos.mpr hne
      rw [chunkLines, dif_neg hne] at hc
      rcases List.mem_append.mp hc with h | h
      · exact Or.inl (List.take_subset 64 e h)
      · rcases List.mem_cons.mp h with rfl | h2
        · exact Or.inr rfl
        · rcases ih (e.drop 64) (by rw [List.length_drop]; omega) c h2 with h3 | h3
          · exact Or.inl (List.drop_subset 64 e h3)
          · exact Or.inr h3

theorem pemMatchBody_tagged (T e : List Char)
    (he : ∀ c ∈ e, isPemBodyChar c = true) (hene : e ≠ []) :
    pemMatchBody T (chunkLines e ++ (endTag ++ T ++ dashes5 ++ ['\n'])) = some T := by
  have hbodyAll : ∀ c ∈ chunkLines e, isPemBodyChar c = true := by
    intro c hc
    rcases chunkLines_chars e.length e (le_refl _) c hc with h | rfl
    · exact he c h
    · decide
  have hcons : endTag ++ T ++ dashes5 ++ ['\n'] =
      '-' :: (['-', '-', '-', '-', 'E', 'N', 'D', ' '] ++ (T ++ dashes5 ++ ['\n'])) := by
    rw [show endTag = '-' :: ['-', '-', '-', '-', 'E', 'N', 'D', ' '] by decide]
    simp [List.append_assoc]
  have hspan := takeWhile_append_all isPemBodyChar (chunkLines e)
    (endTag ++ T ++ dashes5 ++ ['\n']) hbodyAll
  have htwF : (endTag ++ T ++ dashes5 ++ ['\n']).takeWhile isPemBodyChar = [] := by
    rw [hcons, List.takeWhile_cons]
    simp [show isPemBodyChar '-' = false by decide]
  have hdwF : (endTag ++ T ++ dashes5 ++ ['\n']).dropWhile isPemBodyChar =
      endTag ++ T ++ dashes5 ++ ['\n'] := by
    conv_lhs => rw [hcons]
    rw [List.dropWhile_cons]
    simp only [show isPemBodyChar '-' = false by decide, Bool.false_eq_true, if_false]
    rw [hcons]
  have hrun : (chunkLines e ++ (endTag ++ T ++ dashes5 ++ ['\n'])).takeWhile isPemBodyChar =
      chunkLines e := by
    rw [hspan.1, htwF, List.append_nil]
  have hafter : (chunkLines e ++ (endTag ++ T ++ dashes5 ++ ['\n'])).dropWhile isPemBodyChar =
      endTag ++ T ++ dashes5 ++ ['\n'] := by
    rw [hspan.2, hdwF]
  have hfootsplit : endTag ++ T ++ dashes5 ++ ['\n'] = (endTag ++ T ++ dashes5) ++ ['\n'] :=
    rfl
  have hfoot : (endTag ++ T ++ dashes5).isPrefixOf (endTag ++ T ++ dashes5 ++ ['\n']) =
      true := by
    rw [List.isPrefixOf_iff_prefix]
    exact List.prefix_append _ _
  have hrem : (endTag ++ T ++ dashes5 ++ ['\n']).drop (endTag ++ T ++ dashes5).length =
      ['\n'] := List.drop_left _ _
  simp only [pemMatchBody, hrun, hafter]
  rw [if_pos (chunkLines_getLast e.length e (le_refl _) hene), if_pos hfoot, hrem]
  simp

theorem pemMatchAt_tagged (T A : List Char) (hT : '\n' ∉ T) :
    pemMatchAt ((beginTag ++ T ++ dashes5) ++ '\n' :: A) = pemMatchBody T A := by
  have hH : ∀ a ∈ beginTag ++ T ++ dashes5, (fun c => decide (c ≠ '\n')) a = true := by
    intro a ha
    have hbt : ∀ x ∈ beginTag, x ≠ '\n' := by decide
    have hds : ∀ x ∈ dashes5, x ≠ '\n' := by decide
    rcases List.mem_append.mp ha with h | h
    · rcases List.mem_append.mp h with h1 | h1
      · exact decide_eq_true (hbt a h1)
      · exact decide_eq_true (fun hh => hT (hh ▸ h1))
    · exact decide_eq_true (hds a h)
  have hspan := takeWhile_append_all (fun c => decide (c ≠ '\n'))
    (beginTag ++ T ++ dashes5) ('\n' :: A) hH
  have htw : ((beginTag ++ T ++ dashes5) ++ '\n' :: A).takeWhile
      (fun c => decide (c ≠ '\n')) = beginTag ++ T ++ dashes5 := by
    rw [hspan.1, List.takeWhile_cons]
    simp
  have hdw : ((beginTag ++ T ++ dashes5) ++ '\n' :: A).dropWhile
      (fun c => decide (c ≠ '\n')) = '\n' :: A := by
    rw [hspan.2, List.dropWhile_cons]
    simp
  simp only [pemMatchAt, htw, hdw, pemMatchHeader_tagged]

theorem identifyPemType_tagged (T e : List Char) (hT : '\n' ∉ T)
    (he : ∀ c ∈ e, isPemBodyChar c = true) (hene : e ≠ []) :
    identifyPemType ((beginTag ++ T ++ dashes5) ++
      '\n' :: (chunkLines e ++ (endTag ++ T ++ dashes5 ++ ['\n']))) = some T := by
  simp only [identifyPemType, pemMatchAt_tagged T _ hT, pemMatchBody_tagged T e he hene]

/-- **C8, counterexample**: for the empty buffer, `toPem` produces a
header line directly followed by the footer line; `PEM_REGEX` does not
match that text (the body must contribute one more newline), so `readPEM`
treats it as raw bytes and returns the PEM text itself instead of the
empty buffer. -/
theorem C8_counterexample :
    readPEM (toPem [] ("CERTIFICATE".toList)) ≠ [] := by
  have h1 : toPem [] ("CERTIFICATE".toList) =
      (beginTag ++ "CERTIFICATE".toList ++ dashes5) ++
        '\n' :: (chunkLines [] ++ (endTag ++ "CERTIFICATE".toList ++ dashes5 ++ ['\n'])) := by
    rw [toPem, show identifyPemType (bytesToChars []) = none by decide]
    rfl
  rw [h1, chunkLines_nil, List.nil_append]
  decide

theorem readPEM_shape (H F : List Char) (L : List (List Char)) :
    (List.take ((H :: (L ++ [F, []])).length - 3) (List.drop 1 (H :: (L ++ [F, []])))).flatten =
      L.flatten := by
  have h1 : List.drop 1 (H :: (L ++ [F, []])) = L ++ [F, []] := rfl
  have h2 : (H :: (L ++ [F, []])).length - 3 = L.length := by simp
  rw [h1, h2, List.take_append_of_le_length (le_refl _), List.take_length]

/-- **C8, amended**: for every nonempty byte buffer `b` that is not
itself identified as PEM, and every label `T` among `CERTIFICATE`,
`RSA PRIVATE KEY`, `PUBLIC KEY`, `readPEM (toPem b T) = b`: `toPem`
base64-encodes `b` into 64-character lines between a BEGIN/END `T`
header/footer and `readPEM` strips the header/footer lines and decodes
the interior.  (For empty `b` the produced envelope has no body line and
is not recognized as PEM; for `b` already identified as PEM, `toPem`
returns it unchanged and `readPEM` decodes its interior instead.) -/
theorem C8_pem_roundtrip (b : Bytes) (T : List Char)
    (hTmem : T ∈ [("CERTIFICATE".toList), ("RSA PRIVATE KEY".toList), ("PUBLIC KEY".toList)])
    (hb : b ≠ []) (hbytes : ∀ x ∈ b, x < 256)
    (hnotpem : identifyPemType (bytesToChars b) = none) :
    readPEM (toPem b T) = b := by
  have hT : '\n' ∉ T := by
    simp only [List.mem_cons, List.not_mem_nil, or_false] at hTmem
    rcases hTmem with rfl | rfl | rfl <;> decide
  have hene : base64Encode b ≠ [] := base64Encode_ne_nil b hb
  have hechars := base64Encode_chars b hbytes
  have htext : toPem b T = (beginTag ++ T ++ dashes5) ++
      '\n' :: (chunkLines (base64Encode b) ++ (endTag ++ T ++ dashes5 ++ ['\n'])) := by
    rw [toPem, hnotpem]
  have hTfoot : '\n' ∉ endTag ++ T ++ dashes5 := by
    intro hmem
    rcases List.mem_append.mp hmem with h | h
    · rcases List.mem_append.mp h with h1 | h1
      · exact absurd h1 (by decide)
      · exact hT h1
    · exact absurd h (by decide)
  have hThead : '\n' ∉ beginTag ++ T ++ dashes5 := by
    intro hmem
    rcases List.mem_append.mp hmem with h | h
    · rcases List.mem_append.mp h with h1 | h1
      · exact absurd h1 (by decide)
      · exact hT h1
    · exact absurd h (by decide)
  have hsplit : splitNl ((beginTag ++ T ++ dashes5) ++
      '\n' :: (chunkLines (base64Encode b) ++ (endTag ++ T ++ dashes5 ++ ['\n']))) =
      (beginTag ++ T ++ dashes5) ::
        (linesOf (base64Encode b) ++ [endTag ++ T ++ dashes5, []]) := by
    rw [splitNl_append _ _ hThead,
      splitNl_chunkLines (base64Encode b).length (base64Encode b) (le_refl _)
        (fun c hc => (hechars c hc).2) _]
    have hfoot : endTag ++ T ++ dashes5 ++ ['\n'] =
        (endTag ++ T ++ dashes5) ++ '\n' :: [] := rfl
    rw [hfoot, splitNl_append _ _ hTfoot]
    rfl
  rw [htext]
  simp only [readPEM,
    identifyPemType_tagged T (base64Encode b) hT (fun c hc => (hechars c hc).1) hene, hsplit]
  rw [readPEM_shape, linesOf_flatten (base64Encode b).length (base64Encode b) (le_refl _),
    base64Decode_base64Encode b hbytes]

/-- Witness for C8 (amended) at a concrete buffer and label. -/
theorem C8_pem_roundtrip_witness :
    readPEM (toPem [1, 2, 3] ("CERTIFICATE".toList)) = [1, 2, 3] := by
  exact C8_pem_roundtrip [1, 2, 3] ("CERTIFICATE".toList) (by decide) (by decide)
    (by decide) (by decide)

theorem dropWhile_cons_head (p : Char → Bool) :
    ∀ (s : List Char) c r, s.dropWhile p = c :: r → p c = false := by
  intro s
  induction s with
  | nil => intro c r h; simp at h
  | cons a t ih =>
    intro c r h
    rw [List.dropWhile_cons] at h
    by_cases hp : p a = true
    · rw [if_pos hp] at h
      exact ih c r h
    · rw [if_neg hp] at h
      injection h with h1 h2
      subst h1
      cases hb : p a with
      | false => rfl
      | true => exact absurd hb hp

theorem mem_of_getLast?_eq {l : List Char} {x : Char} (h : l.getLast? = some x) : x ∈ l := by
  obtain ⟨hne, hx⟩ := List.mem_getLast?_eq_getLast (Option.mem_def.mpr h)
  rw [hx]
  exact List.getLast_mem hne

theorem pemMatchAt_two_nl (s t : List Char) (h : pemMatchAt s = some t) :
    2 ≤ s.count '\n' := by
  rw [pemMatchAt] at h
  cases hdw : s.dropWhile (fun c => decide (c ≠ '\n')) with
  | nil => rw [hdw] at h; exact absurd h (by simp)
  | cons c after =>
    rw [hdw] at h
    cases hph : pemMatchHeader (s.takeWhile (fun c => decide (c ≠ '\n'))) with
    | none => rw [hph] at h; exact absurd h (by simp)
    | some ty =>
      rw [hph] at h
      have hc : c = '\n' := by
        have hfalse := dropWhile_cons_head _ s c after hdw
        simpa using hfalse
      subst hc
      have hrun : (after.takeWhile isPemBodyChar).getLast? = some '\n' := by
        by_contra hno
        simp only [pemMatchBody] at h
        rw [if_neg hno] at h
        exact absurd h (by simp)
      have hmem : '\n' ∈ after :=
        (List.takeWhile_prefix isPemBodyChar).subset (mem_of_getLast?_eq hrun)
      have hcount : 0 < after.count '\n' := List.count_pos_iff.mpr hmem
      have hsplit := List.takeWhile_append_dropWhile (fun c => decide (c ≠ '\n')) s
      have hits : s.count '\n' =
          (s.takeWhile (fun c => decide (c ≠ '\n'))).count '\n' + (after.count '\n' + 1) := by
        conv_lhs => rw [← hsplit]
        rw [List.count_append, hdw, List.count_cons]
        simp
      omega

theorem findPemAux_two_nl : ∀ s t : List Char, findPemAux s = some t → 2 ≤ s.count '\n' := by
  intro s
  induction s with
  | nil => intro t h; exact absurd h (by simp [findPemAux])
  | cons c r ih =>
    intro t h
    rw [findPemAux] at h
    by_cases hc : c = '\n'
    · rw [if_pos hc] at h
      cases hm : pemMatchAt r with
      | some ty =>
        have hr := pemMatchAt_two_nl r ty hm
        subst hc
        rw [List.count_cons, if_pos (show ('\n' == '\n') = true from rfl)]
        omega
      | none =>
        rw [hm] at h
        have hr := ih t h
        subst hc
        rw [List.count_cons, if_pos (show ('\n' == '\n') = true from rfl)]
        omega
    · rw [if_neg hc] at h
      simp only [] at h
      have hr := ih t h
      rw [List.count_cons]
      omega

/-- `toPem` on the empty buffer: no body lines, header directly followed
by footer. -/
theorem toPem_nil (T : List Char) :
    toPem [] T = (beginTag ++ T ++ dashes5) ++ '\n' :: (endTag ++ T ++ dashes5 ++ ['\n']) := by
  rw [toPem, show identifyPemType (bytesToChars []) = none by decide]
  show beginTag ++ T ++ dashes5 ++
      '\n' :: (chunkLines (base64Encode []) ++ (endTag ++ T ++ dashes5 ++ ['\n'])) = _
  rw [show base64Encode [] = [] from rfl, chunkLines_nil, List.nil_append]

/-- **C10**: `identifyPemType` returns a label only for an envelope whose
body contributes a line of its own — a match forces at least two newlines
in the text (the header's and the body run's); consequently, for the empty
buffer and each recognized label, the header-plus-footer text produced by
`toPem` is not identified as PEM. -/
theorem C10_identify_requires_body :
    (∀ s ty : List Char, identifyPemType s = some ty → 2 ≤ s.count '\n') ∧
    identifyPemType (toPem [] ("CERTIFICATE".toList)) = none ∧
    identifyPemType (toPem [] ("RSA PRIVATE KEY".toList)) = none ∧
    identifyPemType (toPem [] ("PUBLIC KEY".toList)) = none := by
  refine ⟨?_, ?_, ?_, ?_⟩
  · intro s ty h
    rw [identifyPemType] at h
    cases hm : pemMatchAt s with
    | some t2 => exact pemMatchAt_two_nl s t2 hm
    | none =>
      rw [hm] at h
      exact findPemAux_two_nl s ty h
  · rw [toPem_nil]
    decide
  · rw [toPem_nil]
    decide
  · rw [toPem_nil]
    decide

/-- Witness for C10 at a concrete PEM text. -/
theorem C10_identify_requires_body_witness :
    2 ≤ (("-----BEGIN A-----\nAA\n-----END A-----\n").toList.count '\n') :=
  C10_identify_requires_body.1 ("-----BEGIN A-----\nAA\n-----END A-----\n").toList ['A']
    (by decide)

/-- **C9**: whenever `exploreCertificate` returns a result, its
`publicKeyLength` is exactly 128 or exactly 256: the source asserts
`data.publicKeyLength === 256 || data.publicKeyLength === 128` before
returning, and a failing assert throws; no other modulus length can be
returned, whatever the X.509 parser produced. -/
theorem C9_exploreCertificate_keyLength (parse : List Char → Option (Nat × Int × Int))
    (cert : List Char) (r : CryptoUtils.ExploreResult)
    (h : exploreCertificate parse cert = some r) :
    r.publicKeyLength = 128 ∨ r.publicKeyLength = 256 := by
  rw [exploreCertificate] at h
  cases hp : parse cert with
  | none => rw [hp] at h; exact absurd h (by simp)
  | some triple =>
    rw [hp] at h
    obtain ⟨hNLen, nb, na⟩ := triple
    simp only [] at h
    by_cases hc : hNLen % 2 = 0 ∧ (hNLen / 2 - 1 = 256 ∨ hNLen / 2 - 1 = 128)
    · rw [if_pos hc] at h
      injection h with h1
      subst h1
      rcases hc.2 with h2 | h2
      · exact Or.inr h2
      · exact Or.inl h2
    · rw [if_neg hc] at h
      exact absurd h (by simp)

/-- Witness for C9 with a parser stub reporting a 258-character modulus
hex string (a 128-byte modulus with its leading zero byte). -/
theorem C9_exploreCertificate_keyLength_witness :
    exploreCertificate (fun _ => some (258, 0, 0)) [] =
      some { publicKeyLength := 128, notBefore := 0, notAfter := 0 } ∧
    ((128 : Nat) = 128 ∨ (128 : Nat) = 256) := by
  refine ⟨rfl, ?_⟩
  have h := C9_exploreCertificate_keyLength (fun _ => some (258, 0, 0)) []
    { publicKeyLength := 128, notBefore := 0, notAfter := 0 } rfl
  exact h
